import Mathlib

/-!
Verification of the SQL-chatbot sanitize / normalize / transcript core.

The definitions below are a shallow embedding of `src/app.py` (and the
transcript seeding around `st.session_state["messages"]`).  Strings are
modelled as Lean `String` (a wrapper around `List Char`); Python string
primitives (`strip`, `split`, `re.sub`, `re.search`, `startswith`,
`endswith`) are modelled character by character on `List Char`.  Whitespace
is modelled as the ASCII whitespace set recognised by Python `str.strip()`
and by the regex class `\s` (space, tab, newline, carriage return, vertical
tab, form feed); non-ASCII whitespace and non-ASCII case folding are out of
scope.  Several character constants (apostrophe, backtick) are built with
`Char.ofNat` and string constants with `String.append`, so that no special
character has to appear literally in the Lean source.
-/

/-- Apostrophe character (codepoint 39). -/
def apos : Char := Char.ofNat 39

/-- Backtick character (codepoint 96), the code-fence character. -/
def btChar : Char := Char.ofNat 96

/-- Apostrophe as a one-character string, used to build string constants. -/
def apostr : String := String.singleton apos

/-- ASCII whitespace as recognised by Python `str.strip()` and regex `\s`:
space, tab, newline, carriage return, vertical tab (11), form feed (12). -/
def isPySpace (c : Char) : Bool :=
  c == ' ' || c == '\t' || c == '\n' || c == '\r' ||
  c == Char.ofNat 11 || c == Char.ofNat 12

/-- Drop characters satisfying `p` from both ends of a character list.
`stripEnds isPySpace` models Python `str.strip()`;
`stripEnds isSemi` models Python `str.strip(";")`. -/
def stripEnds (p : Char → Bool) (l : List Char) : List Char :=
  (((l.dropWhile p).reverse).dropWhile p).reverse

/-- Python `str.strip()` on a character list (ASCII whitespace). -/
def pyStripL (l : List Char) : List Char := stripEnds isPySpace l

/-- Semicolon test, for Python `str.strip(";")`. -/
def isSemi (c : Char) : Bool := c == ';'

/-- Python `str.strip(";")` on a character list: semicolons are removed from
both ends (this is what line 92 of `app.py` does). -/
def stripSemisL (l : List Char) : List Char := stripEnds isSemi l

/-- Python `str.startswith(pre)`. -/
def startswith (s pre : String) : Bool := List.isPrefixOf pre.data s.data

/-- The literal phrase used as a commentary boundary in `clean_sql_query`
(line 90 of `app.py`): the characters of the case-sensitive phrase
Let-apostrophe-s-space-run. -/
def letsRun : List Char := ['L', 'e', 't', apos, 's', ' ', 'r', 'u', 'n']

/-- The phrase `letsRun` as a string. -/
def letsRunStr : String := String.mk letsRun

/-- The three-backtick code fence. -/
def fence : List Char := [btChar, btChar, btChar]

/-- Does the list start with three backticks?  This is the second
alternative of the pattern of `re.sub(r"```sql|```", ...)` at the current
scan position. -/
def isFenceAt (l : List Char) : Bool := List.isPrefixOf fence l

/-- After three backticks, is there a case-insensitive `sql` tag?
Models the `IGNORECASE` matching of the letters in the first alternative
of `re.sub(r"```sql|```", ..., flags=re.IGNORECASE)` (ASCII case only). -/
def sqlTagAfter (l : List Char) : Bool :=
  match l.drop 3 with
  | s :: q :: t :: _ =>
      (s == 's' || s == 'S') && (q == 'q' || q == 'Q') && (t == 'l' || t == 'L')
  | _ => false

/-- Does the list start with a fenced `sql` tag (the first alternative of
the substitution pattern)? -/
def isFenceSqlAt (l : List Char) : Bool := isFenceAt l && sqlTagAfter l

/-- One left-to-right pass of `re.sub(r"```sql|```", "", raw, flags=re.IGNORECASE)`
(line 88 of `app.py`): at each position, first try to consume a six-character
fence-plus-tag, then a three-character fence, else keep the character and move
on.  The `Nat` argument is recursion fuel; every step consumes at least one
character, so fuel equal to the length of the list is always enough (see
`removeFencesL`), and the fuel-exhausted equation is never reached there. -/
def removeFencesGo : Nat → List Char → List Char
  | _, [] => []
  | 0, l => l
  | fuel + 1, c :: rest =>
    if isFenceSqlAt (c :: rest) then removeFencesGo fuel (rest.drop 5)
    else if isFenceAt (c :: rest) then removeFencesGo fuel (rest.drop 2)
    else c :: removeFencesGo fuel rest

/-- `re.sub(r"```sql|```", "", l, flags=re.IGNORECASE)` on a character list. -/
def removeFencesL (l : List Char) : List Char := removeFencesGo l.length l

/-- The prefix of `l` before the first occurrence of `pat`, or all of `l`
when `pat` does not occur: Python `l.split(pat)[0]` (line 90 of `app.py`). -/
def truncateAtL (pat : List Char) : List Char → List Char
  | [] => []
  | c :: rest =>
      if List.isPrefixOf pat (c :: rest) then []
      else c :: truncateAtL pat rest

/-- Substring test on character lists (Python `pat in l`, and the scaffolding
for reasoning about occurrences of a pattern). -/
def containsL (pat : List Char) : List Char → Bool
  | [] => pat.isEmpty
  | c :: rest => List.isPrefixOf pat (c :: rest) || containsL pat rest

/-- Python `l.endswith(";")` on a character list. -/
def endswithSemi (l : List Char) : Bool :=
  match l.reverse with
  | c :: _ => c == ';'
  | [] => false

/-- Lines 92 to 95 of `clean_sql_query`: strip whitespace, strip semicolons
from both ends, and append a semicolon when the result does not already end
in one. -/
def postSemis (l : List Char) : List Char :=
  let cleaned := stripSemisL (pyStripL l)
  if endswithSemi cleaned then cleaned else cleaned ++ [';']

/-- `clean_sql_query` (lines 85 to 96 of `app.py`): remove code fences,
truncate at the commentary phrase, strip whitespace and semicolons, and
terminate with a semicolon. -/
def clean_sql_query (raw_sql : String) : String :=
  String.mk (postSemis (truncateAtL letsRun (removeFencesL raw_sql.data)))

/-- The replacement query for a leading `.schema` meta-command
(line 144 of `app.py`). -/
def schemaSelect : String :=
  "SELECT sql FROM sqlite_master WHERE type=" ++ apostr ++ "table" ++ apostr ++ ";"

/-- The replacement query for a leading `.tables` meta-command
(line 146 of `app.py`). -/
def tablesSelect : String :=
  "SELECT name FROM sqlite_master WHERE type=" ++ apostr ++ "table" ++ apostr ++ ";"

/-- The sanitize stage applied to an extracted candidate `sql_query`
(lines 140 to 149 of `app.py`): strip, rewrite the `.schema` / `.tables`
meta-commands, then run `clean_sql_query`. -/
def sanitize (sql_query : String) : String :=
  let fixed_query := String.mk (pyStripL sql_query.data)
  if startswith fixed_query ".schema" then clean_sql_query schemaSelect
  else if startswith fixed_query ".tables" then clean_sql_query tablesSelect
  else clean_sql_query fixed_query

/-- Does the string end in exactly one semicolon: last character is a
semicolon and the one before it (when present) is not. -/
def endsInOneSemi (s : String) : Bool :=
  match s.data.reverse with
  | [] => false
  | c :: rest => (c == ';') && ((rest.headD ' ') != ';')

/-- Case-insensitive match of the marker `SQLQuery:` at the head of the
list (ASCII case folding, as in `re.IGNORECASE`). -/
def markerAt (l : List Char) : Bool :=
  match l with
  | a :: b :: c :: d :: e :: f :: g :: h :: i :: _ =>
      (a == 'S' || a == 's') && (b == 'Q' || b == 'q') && (c == 'L' || c == 'l') &&
      (d == 'Q' || d == 'q') && (e == 'U' || e == 'u') && (f == 'E' || f == 'e') &&
      (g == 'R' || g == 'r') && (h == 'Y' || h == 'y') && (i == ':')
  | _ => false

/-- Leftmost occurrence of the marker: returns the characters after the
marker at the first position where it matches, as `re.search` would. -/
def findMarker : List Char → Option (List Char)
  | [] => none
  | c :: rest =>
      if markerAt (c :: rest) then some ((c :: rest).drop 9)
      else findMarker rest

/-- The extraction at lines 127 to 130 of `app.py`:
`re.search(r"SQLQuery:\s*(.*)", raw, re.IGNORECASE)` followed by
`.group(1).strip()`.  After the marker, the greedy `\s*` consumes all
whitespace (including newlines), then `(.*)` captures up to the next
newline, and the capture is stripped.  `none` models a failed search
(`sql_query = None`). -/
def extract_sql (raw : String) : Option String :=
  match findMarker raw.data with
  | none => none
  | some after =>
      some (String.mk (pyStripL
        ((after.dropWhile isPySpace).takeWhile (fun c => c != '\n'))))

/-- A scalar value inside a row tuple: the integer and string literals that
the result parser (`ast.literal_eval` on line 162 of `app.py`) can produce
in this model. -/
inductive PyVal where
  | int (n : Int)
  | str (s : String)
deriving DecidableEq

/-- A row of a query result: one parsed tuple. -/
abbrev Row := List PyVal

/-- What `db.run` hands back (line 153 of `app.py`): either a structured
list of row tuples, or free text.  The shape is deliberately ambiguous at
the database boundary. -/
inductive RunResult where
  | rows (l : List Row)
  | text (s : String)
deriving DecidableEq

/-- Outcome of the metadata-only column-name probe re-issued against the
connection (lines 169 to 173 of `app.py`): either the column names, or an
exception (any reason), which selects the synthetic fallback. -/
inductive Probe where
  | ok (cols : List String)
  | fail
deriving DecidableEq

/-- What the normalizer hands to the renderer: a table (column names plus
rows, the input of `pd.DataFrame` and `st.dataframe`), the raw result
written back verbatim (`st.write(query_result)` on line 188), or the
display warning of line 191 (the local `except` around parsing/column
detection).  Rendering itself (pandas, Streamlit) is an external boundary
and is not modelled. -/
inductive Display where
  | table (columns : List String) (rows : List Row)
  | scalar (raw : RunResult)
  | displayWarning
deriving DecidableEq

/-- Parse a decimal digit sequence. -/
def digitsToNat (ds : List Char) : Nat :=
  ds.foldl (fun n c => n * 10 + (c.toNat - 48)) 0

/-- Parse one literal value (integer, or quoted string) after skipping
whitespace; returns the value and the unconsumed rest.  This is the leaf of
the modelled `ast.literal_eval` subset.  A quoted string is scanned to the
next occurrence of its quote character and rejected outright when it
contains a backslash (codepoint 92): Python escape sequences are outside
the modelled subset.  The rejection is sound in both directions of
interest: a backslash-free body is decoded verbatim by Python exactly as
here, and any input on which Python would treat the closing quote as
escaped, fail with a syntax error, or decode an escape differently
necessarily carries a backslash in the scanned body and is mapped to
parse failure (hence to the display-warning path). -/
def parseVal (l : List Char) : Option (PyVal × List Char) :=
  let l0 := l.dropWhile isPySpace
  match l0 with
  | [] => none
  | c :: rest =>
    if c == apos || c == Char.ofNat 34 then
      let s := rest.takeWhile (fun d => d != c)
      if s.any (fun d => d == Char.ofNat 92) then none
      else
        match rest.dropWhile (fun d => d != c) with
        | _ :: r2 => some (PyVal.str (String.mk s), r2)
        | [] => none
    else if c == '-' then
      let ds := rest.takeWhile Char.isDigit
      if ds.isEmpty then none
      else some (PyVal.int (-(digitsToNat ds : Int)), rest.dropWhile Char.isDigit)
    else if c.isDigit then
      let ds := l0.takeWhile Char.isDigit
      some (PyVal.int (digitsToNat ds : Int), l0.dropWhile Char.isDigit)
    else none

/-- Parse the comma-separated values of a tuple, positioned after the first
value-or-close decision.  `commaSeen` records whether a comma has occurred:
a parenthesized single value without a trailing comma is not a tuple in
Python, so the modelled subset rejects it (in `app.py` such inputs only
reach the same warning path through a later failure).  Fuel decreases on
each recursive call. -/
def parseVals : Nat → Bool → List Char → Option (List PyVal × List Char)
  | 0, _, _ => none
  | fuel + 1, commaSeen, l =>
    match parseVal l with
    | none => none
    | some (v, r) =>
      match r.dropWhile isPySpace with
      | [] => none
      | c :: r2 =>
        if c == ')' then (if commaSeen then some ([v], r2) else none)
        else if c == ',' then
          match r2.dropWhile isPySpace with
          | [] => none
          | d :: r4 =>
            if d == ')' then some ([v], r4)
            else
              match parseVals fuel true (d :: r4) with
              | some (vs, r5) => some (v :: vs, r5)
              | none => none
        else none

/-- Parse a tuple body, positioned right after the opening parenthesis. -/
def parseTupleRest (fuel : Nat) (l : List Char) : Option (List PyVal × List Char) :=
  match l.dropWhile isPySpace with
  | [] => none
  | c :: r => if c == ')' then some ([], r) else parseVals fuel false (c :: r)

/-- Parse the comma-separated tuples of a list, positioned after the opening
bracket. -/
def parseRows : Nat → List Char → Option (List Row × List Char)
  | 0, _ => none
  | fuel + 1, l =>
    match l.dropWhile isPySpace with
    | [] => none
    | c :: r =>
      if c == ']' then some ([], r)
      else if c == '(' then
        match parseTupleRest fuel r with
        | none => none
        | some (row, r2) =>
          match r2.dropWhile isPySpace with
          | [] => none
          | d :: r4 =>
            if d == ']' then some ([row], r4)
            else if d == ',' then
              match parseRows fuel r4 with
              | some (rows, r5) => some (row :: rows, r5)
              | none => none
            else none
      else none

/-- The modelled subset of `ast.literal_eval` (line 162 of `app.py`): a
bracketed, comma-separated sequence of parenthesized tuples of integer and
backslash-free quoted-string literals, with optional trailing commas and
surrounding whitespace, consumed in full.  The subset is a restriction of
`ast.literal_eval`: whenever this parser returns `some rows`, Python
succeeds on the same input with exactly these rows; every other literal
form (escape sequences, floats, byte strings, nested containers, implicit
string concatenation) is mapped to `none` here, whether Python raises on
it or parses it.  `none` therefore lands in the same local exception
handler a raised `literal_eval` does, and the parser never succeeds with a
value Python would not produce. -/
def literalEvalTuples (s : String) : Option (List Row) :=
  match s.data.dropWhile isPySpace with
  | [] => none
  | c :: rest =>
    if c == '[' then
      match parseRows (s.data.length + 1) rest with
      | some (rows, rem) => if (rem.dropWhile isPySpace).isEmpty then some rows else none
      | none => none
    else none

/-- The synthetic column names assigned when the probe fails
(line 174 of `app.py`): `col_1 .. col_N` with `N` the width of the first
row of `data_list`. -/
def fallback_columns (data_list : List Row) : List String :=
  (List.range (match data_list with | r :: _ => r.length | [] => 0)).map
    (fun i => "col_" ++ toString (i + 1))

/-- Column-name determination for a non-empty `data_list` (lines 168 to
174): the probe result when the probe succeeds, else the synthetic names. -/
def columns_for (probe : Probe) (data_list : List Row) : List String :=
  match probe with
  | Probe.ok cols => cols
  | Probe.fail => fallback_columns data_list

/-- The result normalizer, `normalize` in the specification (lines 156 to 191 of `app.py`): a structured list
is used directly; text beginning with the two characters bracket-paren is
parsed as a literal list of tuples (a parse failure raises and is caught by
the local display handler); an empty or undetected structure falls through
to `st.write(query_result)`, modelled as `Display.scalar` with the raw
result unchanged. -/
def normalize_result (query_result : RunResult) (probe : Probe) : Display :=
  match query_result with
  | RunResult.rows l =>
      if l.isEmpty then Display.scalar query_result
      else Display.table (columns_for probe l) l
  | RunResult.text s =>
      if startswith s "[(" then
        match literalEvalTuples s with
        | none => Display.displayWarning
        | some l =>
            if l.isEmpty then Display.scalar query_result
            else Display.table (columns_for probe l) l
      else Display.scalar query_result

/-- Chat roles appearing in the transcript. -/
inductive Role where
  | user
  | assistant
deriving DecidableEq

/-- One transcript entry: a role-tagged message
(the dictionaries stored in `st.session_state["messages"]`). -/
structure ChatMessage where
  role : Role
  content : String
deriving DecidableEq

/-- The seeded assistant greeting (line 100 of `app.py`). -/
def greeting : String := "Hello! Ask me anything about your database."

/-- Clearing the chat history (lines 99 to 100 of `app.py`): whatever the
prior transcript was, it is replaced wholesale by the single seeded
assistant greeting. -/
def clear_messages (_prior : List ChatMessage) : List ChatMessage :=
  [⟨Role.assistant, greeting⟩]

/-- What the assistant column shows for the executed query in one turn. -/
inductive TurnDisplay where
  | noQuery
  | execWarn (err : String)
  | rendered (d : Display)
deriving DecidableEq

/-- One user turn (lines 110 to 198 of `app.py`), with the LLM call already
resolved to `raw` (`result["result"]`) and the database boundary passed in
as the oracle `dbRun` (`Except.error` models an exception raised by
`db.run`).  The user message is appended first (line 111); then the
candidate is extracted; if it is `None` or empty, nothing is sanitized or
executed; otherwise the sanitized query is run, an execution exception
becoming the non-fatal warning of line 195.  In every case the assistant
message with the raw LLM text is appended (line 198). -/
def handle_turn (msgs : List ChatMessage) (user_query raw : String)
    (dbRun : String → Except String RunResult) (probe : Probe) :
    TurnDisplay × List ChatMessage :=
  let withUser := msgs ++ [⟨Role.user, user_query⟩]
  let disp :=
    match extract_sql raw with
    | none => TurnDisplay.noQuery
    | some s =>
      if s.isEmpty then TurnDisplay.noQuery
      else
        match dbRun (sanitize s) with
        | Except.error e => TurnDisplay.execWarn e
        | Except.ok qr => TurnDisplay.rendered (normalize_result qr probe)
  (disp, withUser ++ [⟨Role.assistant, raw⟩])

/-! ### Concrete inputs used by the claim theorems -/

/-- A raw LLM output with no `SQLQuery:` marker. -/
def rawNoMarker : String := "The result is 42"

/-- A raw LLM output where the marker is followed directly by a newline, so
the SQL starts on the next line. -/
def raw10 : String := "SQLQuery:" ++ "\nSELECT 1\nFROM t"

/-- The characters after the marker in `raw10`. -/
def after10 : String := "\nSELECT 1\nFROM t"

/-- A candidate whose fence-stripped, trimmed form starts with `.schema`
although its raw form does not. -/
def ce3 : String := String.mk fence ++ ".schema"

/-- A candidate in which the commentary phrase occurs, overlapping a
case-insensitive `sql` fence tag: three backticks, then `sq`, then the
phrase, then ` it`. -/
def ce4 : String := String.mk fence ++ "sq" ++ letsRunStr ++ " it"

/-- The fenced example candidate of the specification:
fenced `sql` block containing `SELECT 1`, followed by commentary. -/
def ex4 : String :=
  String.mk fence ++ "sql" ++ "\nSELECT 1\n" ++ String.mk fence ++ "\n" ++ letsRunStr ++ " it"

/-- A plain candidate with the commentary phrase and no fences. -/
def ex4w : String := "SELECT 2 " ++ letsRunStr ++ " now"

theorem head_dropWhile_not (p : Char → Bool) : ∀ (l : List Char) {c : Char},
    (l.dropWhile p).head? = some c → p c = false := by
  intro l
  induction l with
  | nil => intro c h; simp [List.dropWhile] at h
  | cons a l ih =>
    intro c h
    rw [List.dropWhile_cons] at h
    by_cases hp : p a = true
    · rw [if_pos hp] at h; exact ih h
    · rw [if_neg hp] at h
      simp only [List.head?_cons, Option.some.injEq] at h
      subst h
      exact Bool.not_eq_true _ ▸ hp

theorem isPrefixOf_self : ∀ (l : List Char), List.isPrefixOf l l = true := by
  intro l
  induction l with
  | nil => rfl
  | cons a l ih => simp [List.isPrefixOf, ih]

theorem isPrefixOf_append_right : ∀ (pat A t : List Char),
    List.isPrefixOf pat A = true → List.isPrefixOf pat (A ++ t) = true := by
  intro pat
  induction pat with
  | nil => intro A t _; simp [List.isPrefixOf]
  | cons p ps ih =>
    intro A t h
    cases A with
    | nil => simp [List.isPrefixOf] at h
    | cons a A2 =>
      rw [List.cons_append]
      simp only [List.isPrefixOf, Bool.and_eq_true] at h ⊢
      exact ⟨h.1, ih A2 t h.2⟩

theorem contains_append_right : ∀ (pat s X : List Char),
    containsL pat (s ++ X) = false → containsL pat X = false := by
  intro pat s X
  induction s with
  | nil => intro h; simpa using h
  | cons c s2 ih =>
    intro h
    rw [List.cons_append] at h
    simp only [containsL, Bool.or_eq_false_iff] at h
    exact ih h.2

theorem contains_append_left : ∀ (pat X t : List Char),
    containsL pat (X ++ t) = false → containsL pat X = false := by
  intro pat X t
  induction X with
  | nil =>
    intro h
    cases pat with
    | nil =>
      exfalso
      cases t with
      | nil => simp [containsL, List.isEmpty] at h
      | cons a t2 => simp [containsL, List.isPrefixOf] at h
    | cons p ps => simp [containsL, List.isEmpty]
  | cons c X2 ih =>
    intro h
    rw [List.cons_append] at h
    simp only [containsL, Bool.or_eq_false_iff] at h ⊢
    refine ⟨?_, ih h.2⟩
    cases hb : List.isPrefixOf pat (c :: X2) with
    | false => rfl
    | true =>
      exfalso
      have h2 := isPrefixOf_append_right pat (c :: X2) t hb
      rw [List.cons_append] at h2
      rw [h.1] at h2
      exact Bool.false_ne_true h2

theorem exists_prepend_dropWhile (p : Char → Bool) : ∀ (l : List Char),
    ∃ s, s ++ l.dropWhile p = l := by
  intro l
  induction l with
  | nil => exact ⟨[], rfl⟩
  | cons a l2 ih =>
    by_cases hp : p a = true
    · obtain ⟨s, hs⟩ := ih
      refine ⟨a :: s, ?_⟩
      rw [List.dropWhile_cons, if_pos hp, List.cons_append, hs]
    · refine ⟨[], ?_⟩
      rw [List.dropWhile_cons, if_neg hp, List.nil_append]

theorem truncate_append (pat : List Char) : ∀ (l : List Char),
    ∃ t, truncateAtL pat l ++ t = l := by
  intro l
  induction l with
  | nil => exact ⟨[], rfl⟩
  | cons c rest ih =>
    by_cases hp : List.isPrefixOf pat (c :: rest) = true
    · exact ⟨c :: rest, by simp [truncateAtL, hp]⟩
    · obtain ⟨t, ht⟩ := ih
      refine ⟨t, ?_⟩
      simp only [truncateAtL]
      rw [if_neg hp, List.cons_append, ht]

theorem contains_stripEnds (pat : List Char) (p : Char → Bool) (l : List Char)
    (h : containsL pat l = false) : containsL pat (stripEnds p l) = false := by
  have h1 : containsL pat (l.dropWhile p) = false := by
    obtain ⟨s, hs⟩ := exists_prepend_dropWhile p l
    exact contains_append_right pat s _ (by rw [hs]; exact h)
  obtain ⟨s2, hs2⟩ := exists_prepend_dropWhile p (l.dropWhile p).reverse
  have h2 := congrArg List.reverse hs2
  rw [List.reverse_append, List.reverse_reverse] at h2
  show containsL pat ((l.dropWhile p).reverse.dropWhile p).reverse = false
  exact contains_append_left pat _ s2.reverse (by rw [h2]; exact h1)

theorem mem_of_mem_dropWhile (p : Char → Bool) : ∀ (l : List Char) (c : Char),
    c ∈ l.dropWhile p → c ∈ l := by
  intro l
  induction l with
  | nil => intro c h; exact h
  | cons a l2 ih =>
    intro c h
    rw [List.dropWhile_cons] at h
    by_cases hp : p a = true
    · rw [if_pos hp] at h; exact List.mem_cons_of_mem a (ih c h)
    · rw [if_neg hp] at h; exact h

theorem mem_takeWhile_sat (p : Char → Bool) : ∀ (l : List Char) (c : Char),
    c ∈ l.takeWhile p → p c = true := by
  intro l
  induction l with
  | nil => intro c h; simp [List.takeWhile] at h
  | cons a l2 ih =>
    intro c h
    rw [List.takeWhile_cons] at h
    by_cases hp : p a = true
    · rw [if_pos hp] at h
      rcases List.mem_cons.mp h with h1 | h2
      · rw [h1]; exact hp
      · exact ih c h2
    · rw [if_neg hp] at h; simp at h

theorem mem_of_mem_stripEnds (p : Char → Bool) (l : List Char) (c : Char)
    (h : c ∈ stripEnds p l) : c ∈ l := by
  unfold stripEnds at h
  rw [List.mem_reverse] at h
  have h1 := mem_of_mem_dropWhile p _ c h
  rw [List.mem_reverse] at h1
  exact mem_of_mem_dropWhile p _ c h1

/-! ### Fence-removal invariants -/

theorem rfg_nil (fuel : Nat) : removeFencesGo fuel [] = [] := by
  cases fuel <;> rfl

theorem fence_tests_false (c : Char) (rest : List Char) (h : c ≠ btChar) :
    isFenceSqlAt (c :: rest) = false ∧ isFenceAt (c :: rest) = false := by
  have hb : (btChar == c) = false := beq_eq_false_iff_ne.mpr (fun he => h he.symm)
  have h2 : isFenceAt (c :: rest) = false := by
    simp only [isFenceAt, fence, List.isPrefixOf, hb, Bool.false_and]
  exact ⟨by simp only [isFenceSqlAt, h2, Bool.false_and], h2⟩

theorem rfg_cons_of_ne (fuel : Nat) (c : Char) (rest : List Char) (h : c ≠ btChar) :
    removeFencesGo (fuel + 1) (c :: rest) = c :: removeFencesGo fuel rest := by
  obtain ⟨h1, h2⟩ := fence_tests_false c rest h
  simp only [removeFencesGo, h1, h2]
  rfl

theorem rfg_head? (fuel : Nat) (l : List Char) (h : l.head? ≠ some btChar) :
    (removeFencesGo fuel l).head? = l.head? := by
  cases l with
  | nil => rw [rfg_nil]
  | cons c rest =>
    have hc : c ≠ btChar := fun hce => h (by simp [hce])
    cases fuel with
    | zero => rfl
    | succ fuel => rw [rfg_cons_of_ne fuel c rest hc]; rfl

theorem prefix1_of_head (X : List Char) (hh : X.head? ≠ some btChar) :
    List.isPrefixOf [btChar] X = false := by
  cases X with
  | nil => rfl
  | cons f r =>
    have hf : f ≠ btChar := fun he => hh (by simp [he])
    simp only [List.isPrefixOf, Bool.and_true]
    exact beq_eq_false_iff_ne.mpr (fun he => hf he.symm)

theorem prefix2_rfg (fuel : Nat) (rest : List Char)
    (h : List.isPrefixOf [btChar, btChar] rest = false) :
    List.isPrefixOf [btChar, btChar] (removeFencesGo fuel rest) = false := by
  cases rest with
  | nil => rw [rfg_nil]; rfl
  | cons d rest2 =>
    by_cases hd : d = btChar
    case neg =>
      have hh : (removeFencesGo fuel (d :: rest2)).head? = some d := by
        rw [rfg_head? fuel (d :: rest2)
          (fun he => hd (Option.some.inj he))]
        rfl
      cases hX : removeFencesGo fuel (d :: rest2) with
      | nil => rfl
      | cons f R =>
        rw [hX] at hh
        simp only [List.head?_cons, Option.some.injEq] at hh
        subst hh
        simp only [List.isPrefixOf,
          beq_eq_false_iff_ne.mpr (fun he => hd he.symm), Bool.false_and]
    case pos =>
      subst hd
      have h1 : List.isPrefixOf [btChar] rest2 = false := by
        simpa [List.isPrefixOf] using h
      have hh2 : rest2.head? ≠ some btChar := by
        cases rest2 with
        | nil => simp
        | cons e r3 =>
          simp only [List.isPrefixOf, Bool.and_true] at h1
          intro he
          exact (beq_eq_false_iff_ne.mp h1) (Option.some.inj he).symm
      have hno2 : List.isPrefixOf [btChar, btChar] rest2 = false := by
        cases rest2 with
        | nil => rfl
        | cons e r3 =>
          simp only [List.isPrefixOf, Bool.and_true] at h1
          simp only [List.isPrefixOf, h1, Bool.false_and]
      have hga : isFenceAt (btChar :: rest2) = false := by
        simp only [isFenceAt, fence, List.isPrefixOf]
        simp [hno2]
      have hgs : isFenceSqlAt (btChar :: rest2) = false := by
        simp only [isFenceSqlAt, hga, Bool.false_and]
      cases fuel with
      | zero => exact h
      | succ fuel =>
        have hstep : removeFencesGo (fuel + 1) (btChar :: rest2) =
            btChar :: removeFencesGo fuel rest2 := by
          simp [removeFencesGo, hgs, hga]
        rw [hstep]
        have hR : (removeFencesGo fuel rest2).head? ≠ some btChar := by
          rw [rfg_head? fuel rest2 hh2]; exact hh2
        simp only [List.isPrefixOf, beq_self_eq_true, Bool.true_and]
        exact prefix1_of_head _ hR

theorem contains_fence_rfg : ∀ (fuel : Nat) (l : List Char), l.length ≤ fuel →
    containsL fence (removeFencesGo fuel l) = false := by
  intro fuel
  induction fuel with
  | zero =>
    intro l h
    have hl : l = [] := List.eq_nil_of_length_eq_zero (Nat.le_zero.mp h)
    subst hl
    rw [rfg_nil]
    rfl
  | succ fuel ih =>
    intro l h
    cases l with
    | nil => rw [rfg_nil]; rfl
    | cons c rest =>
      rw [List.length_cons] at h
      by_cases h1 : isFenceSqlAt (c :: rest) = true
      · have hstep : removeFencesGo (fuel + 1) (c :: rest) =
            removeFencesGo fuel (rest.drop 5) := by
          simp [removeFencesGo, h1]
        rw [hstep]
        exact ih _ (by rw [List.length_drop]; omega)
      · by_cases h2 : isFenceAt (c :: rest) = true
        · have hstep : removeFencesGo (fuel + 1) (c :: rest) =
              removeFencesGo fuel (rest.drop 2) := by
            simp [removeFencesGo, h1, h2]
          rw [hstep]
          exact ih _ (by rw [List.length_drop]; omega)
        · have hstep : removeFencesGo (fuel + 1) (c :: rest) =
              c :: removeFencesGo fuel rest := by
            simp [removeFencesGo, h1, h2]
          rw [hstep]
          simp only [containsL, Bool.or_eq_false_iff]
          refine ⟨?_, ih rest (by omega)⟩
          by_cases hc : c = btChar
          · subst hc
            have hp2 : List.isPrefixOf [btChar, btChar] rest = false := by
              rw [Bool.not_eq_true] at h2
              simpa [isFenceAt, fence, List.isPrefixOf] using h2
            have := prefix2_rfg fuel rest hp2
            simp only [fence, List.isPrefixOf, beq_self_eq_true, Bool.true_and]
            exact this
          · simp only [fence, List.isPrefixOf,
              beq_eq_false_iff_ne.mpr (fun he => hc he.symm), Bool.false_and]

theorem contains_fence_removeFences (l : List Char) :
    containsL fence (removeFencesL l) = false :=
  contains_fence_rfg l.length l (Nat.le_refl _)

theorem fence_append_semi : ∀ (m : List Char), containsL fence m = false →
    containsL fence (m ++ [';']) = false := by
  intro m
  induction m with
  | nil => intro _; decide
  | cons c m2 ih =>
    intro h
    simp only [containsL, Bool.or_eq_false_iff] at h
    rw [List.cons_append]
    simp only [containsL, Bool.or_eq_false_iff]
    refine ⟨?_, ih h.2⟩
    cases m2 with
    | nil =>
      simp only [List.nil_append]
      simp only [fence, List.isPrefixOf]
      simp [show (btChar == ';') = false by decide]
    | cons d m3 =>
      cases m3 with
      | nil =>
        simp only [List.cons_append, List.nil_append]
        simp only [fence, List.isPrefixOf]
        simp [show (btChar == ';') = false by decide]
      | cons e m4 =>
        have h1 := h.1
        simp only [fence, List.isPrefixOf, Bool.and_true] at h1 ⊢
        exact h1

/-! ### Semicolon normalisation -/

theorem stripSemis_reverse (m : List Char) :
    (stripSemisL m).reverse = ((m.dropWhile isSemi).reverse).dropWhile isSemi := by
  simp [stripSemisL, stripEnds]

theorem endswithSemi_stripSemis (m : List Char) : endswithSemi (stripSemisL m) = false := by
  unfold endswithSemi
  rw [stripSemis_reverse]
  cases hh : ((m.dropWhile isSemi).reverse).dropWhile isSemi with
  | nil => rfl
  | cons c rest =>
    have hc : isSemi c = false := head_dropWhile_not isSemi _ (by rw [hh]; rfl)
    simpa [isSemi] using hc

theorem postSemis_eq (l : List Char) :
    postSemis l = stripSemisL (pyStripL l) ++ [';'] := by
  simp [postSemis, endswithSemi_stripSemis]

theorem endsInOneSemi_postSemis (l : List Char) :
    endsInOneSemi (String.mk (postSemis l)) = true := by
  rw [postSemis_eq]
  unfold endsInOneSemi
  show (match (stripSemisL (pyStripL l) ++ [';']).reverse with
    | [] => false
    | c :: rest => (c == ';') && ((rest.headD ' ') != ';')) = true
  rw [List.reverse_append]
  show (match ';' :: (stripSemisL (pyStripL l)).reverse with
    | [] => false
    | c :: rest => (c == ';') && ((rest.headD ' ') != ';')) = true
  simp only [beq_self_eq_true, Bool.true_and]
  rw [stripSemis_reverse]
  cases hh : ((pyStripL l).dropWhile isSemi).reverse.dropWhile isSemi with
  | nil => decide
  | cons c rest =>
    have hc : isSemi c = false := head_dropWhile_not isSemi _ (by rw [hh]; rfl)
    simp only [List.headD_cons]
    simpa [isSemi] using hc

/-! ### Wellformedness of the cleaned query -/

theorem clean_sql_query_wellformed (x : String) :
    endsInOneSemi (clean_sql_query x) = true ∧
    containsL fence (clean_sql_query x).data = false := by
  constructor
  · exact endsInOneSemi_postSemis _
  · show containsL fence (postSemis (truncateAtL letsRun (removeFencesL x.data))) = false
    rw [postSemis_eq]
    apply fence_append_semi
    show containsL fence (stripEnds isSemi (stripEnds isPySpace _)) = false
    apply contains_stripEnds
    apply contains_stripEnds
    obtain ⟨t, ht⟩ := truncate_append letsRun (removeFencesL x.data)
    exact contains_append_left fence _ t (by rw [ht]; exact contains_fence_removeFences x.data)

theorem sanitize_wellformed (c : String) :
    endsInOneSemi (sanitize c) = true ∧ containsL fence (sanitize c).data = false := by
  simp only [sanitize]
  by_cases h1 : startswith (String.mk (pyStripL c.data)) ".schema" = true
  · rw [if_pos h1]; exact clean_sql_query_wellformed _
  · rw [if_neg h1]
    by_cases h2 : startswith (String.mk (pyStripL c.data)) ".tables" = true
    · rw [if_pos h2]; exact clean_sql_query_wellformed _
    · rw [if_neg h2]; exact clean_sql_query_wellformed _

/-! ### Splitting at the first occurrence of the commentary phrase -/

theorem isPrefixOf_append_of_len : ∀ (pat A B : List Char), pat.length ≤ A.length →
    List.isPrefixOf pat (A ++ B) = true → List.isPrefixOf pat A = true := by
  intro pat
  induction pat with
  | nil => intro A B _ _; cases A <;> rfl
  | cons p ps ih =>
    intro A B hlen h
    cases A with
    | nil => simp at hlen
    | cons a A2 =>
      rw [List.cons_append] at h
      simp only [List.isPrefixOf, Bool.and_eq_true] at h ⊢
      refine ⟨h.1, ih A2 B ?_ h.2⟩
      simp only [List.length_cons] at hlen
      omega

theorem isPrefixOf_split : ∀ (A pat B : List Char),
    List.isPrefixOf pat (A ++ B) = true →
    List.isPrefixOf pat A = true ∨
      (A.length < pat.length ∧
       List.isPrefixOf (pat.drop A.length) B = true) := by
  intro A
  induction A with
  | nil =>
    intro pat B h
    cases pat with
    | nil => left; rfl
    | cons p ps =>
      right
      refine ⟨by simp, ?_⟩
      simpa using h
  | cons a A2 ih =>
    intro pat B h
    cases pat with
    | nil => left; rfl
    | cons p ps =>
      rw [List.cons_append] at h
      simp only [List.isPrefixOf, Bool.and_eq_true] at h
      rcases ih ps B h.2 with h3 | ⟨hl, hd⟩
      · left
        simp only [List.isPrefixOf, Bool.and_eq_true]
        exact ⟨h.1, h3⟩
      · right
        refine ⟨?_, ?_⟩
        · simp only [List.length_cons]
          omega
        · simpa [List.length_cons, List.drop_succ_cons] using hd

theorem letsRun_length : letsRun.length = 9 := rfl

theorem letsRun_no_border : ∀ k, 1 ≤ k → k ≤ 8 →
    List.isPrefixOf (letsRun.drop k) letsRun = false := by
  intro k h1 h2
  interval_cases k <;> decide

theorem truncateAtL_of_match (pat l : List Char)
    (h : List.isPrefixOf pat l = true) : truncateAtL pat l = [] := by
  cases l with
  | nil => rfl
  | cons c rest => simp [truncateAtL, h]

theorem truncate_split : ∀ (u v : List Char),
    containsL letsRun u = false →
    truncateAtL letsRun (u ++ (letsRun ++ v)) = u := by
  intro u
  induction u with
  | nil =>
    intro v _
    rw [List.nil_append]
    exact truncateAtL_of_match letsRun _
      (isPrefixOf_append_right letsRun letsRun v (isPrefixOf_self letsRun))
  | cons c u2 ih =>
    intro v h
    simp only [containsL, Bool.or_eq_false_iff] at h
    rw [List.cons_append]
    have hstep : List.isPrefixOf letsRun (c :: (u2 ++ (letsRun ++ v))) = false := by
      cases hb : List.isPrefixOf letsRun (c :: (u2 ++ (letsRun ++ v))) with
      | false => rfl
      | true =>
        exfalso
        have hb2 : List.isPrefixOf letsRun ((c :: u2) ++ (letsRun ++ v)) = true := by
          rw [List.cons_append]; exact hb
        rcases isPrefixOf_split (c :: u2) letsRun (letsRun ++ v) hb2 with hcpre | ⟨hl, hdrop⟩
        · rw [h.1] at hcpre
          exact Bool.false_ne_true hcpre
        · have hk1 : 1 ≤ (c :: u2).length := by
            simp [List.length_cons]
          have hk8 : (c :: u2).length ≤ 8 := by
            rw [letsRun_length] at hl
            omega
          have hlen : (letsRun.drop (c :: u2).length).length ≤ letsRun.length := by
            rw [List.length_drop]
            omega
          have hpl : List.isPrefixOf (letsRun.drop (c :: u2).length) letsRun = true :=
            isPrefixOf_append_of_len _ letsRun v hlen hdrop
          rw [letsRun_no_border _ hk1 hk8] at hpl
          exact Bool.false_ne_true hpl
    simp only [truncateAtL]
    rw [if_neg (by rw [hstep]; exact Bool.false_ne_true)]
    rw [ih v h.2]

/-! ### Claim theorems -/

/-- C1 counterexample: for the raw output `rawNoMarker`, which contains no
`SQLQuery:` marker, the extraction yields `none` and the turn produces the
`noQuery` display, skipping sanitization and execution entirely (the
database oracle would have reported the error `boom` had it been called);
the raw text is not treated as a candidate SQL statement.  This refutes the
claim that the entire raw text is used as the candidate in this case. -/
theorem c1_counterexample :
    extract_sql rawNoMarker = none ∧
    handle_turn [] "question" rawNoMarker (fun _ => Except.error "boom") Probe.fail
      = (TurnDisplay.noQuery,
         [⟨Role.user, "question"⟩, ⟨Role.assistant, rawNoMarker⟩]) ∧
    (TurnDisplay.noQuery : TurnDisplay) ≠ TurnDisplay.execWarn "boom" :=
  ⟨by decide, by decide, by decide⟩

/-- C1 amended: for every raw LLM output with no occurrence of the
case-insensitive marker `SQLQuery:`, the extraction yields no candidate and
the turn skips the sanitize and execute stages entirely (display `noQuery`,
no call to the database boundary); the raw text is still shown and appended
to the transcript. -/
theorem c1_amended (msgs : List ChatMessage) (q raw : String)
    (dbRun : String → Except String RunResult) (probe : Probe)
    (h : extract_sql raw = none) :
    handle_turn msgs q raw dbRun probe =
      (TurnDisplay.noQuery, msgs ++ [⟨Role.user, q⟩, ⟨Role.assistant, raw⟩]) := by
  simp [handle_turn, h]

/-- C1 witness: the amended statement at a concrete markerless raw output. -/
theorem c1_amended_witness :
    handle_turn [] "q" "no marker in sight" (fun _ => Except.ok (RunResult.text "x")) Probe.fail
      = (TurnDisplay.noQuery,
         [⟨Role.user, "q"⟩, ⟨Role.assistant, "no marker in sight"⟩]) :=
  c1_amended [] "q" "no marker in sight" (fun _ => Except.ok (RunResult.text "x"))
    Probe.fail (by decide)

/-- C2: for every raw text containing a `SQLQuery:` marker followed by any
SQL, the sanitize operation returns a string that ends in exactly one
semicolon and contains no triple-backtick code-fence sequence (with or
without a language tag). -/
theorem c2_sanitize_semicolon_and_fence_free (raw s : String)
    (_h : extract_sql raw = some s) :
    endsInOneSemi (sanitize s) = true ∧ containsL fence (sanitize s).data = false :=
  sanitize_wellformed s

/-- C2 witness: the theorem at a concrete raw output whose extracted
candidate carries a fenced `sql` block. -/
theorem c2_witness :
    endsInOneSemi (sanitize (String.mk fence ++ "sql SELECT 1" ++ String.mk fence)) = true ∧
    containsL fence (sanitize (String.mk fence ++ "sql SELECT 1" ++ String.mk fence)).data = false :=
  c2_sanitize_semicolon_and_fence_free
    ("SQLQuery: " ++ String.mk fence ++ "sql SELECT 1" ++ String.mk fence)
    (String.mk fence ++ "sql SELECT 1" ++ String.mk fence) (by decide)

/-- C3 counterexample: the candidate `ce3` (three backticks followed by
`.schema`) has a trimmed, fence-stripped form that starts with `.schema`,
yet sanitize returns `.schema;` rather than the schema query: the rewrite
in the code runs before fence stripping, not after it as the stated step
order requires. -/
theorem c3_counterexample :
    startswith (String.mk (pyStripL (removeFencesL ce3.data))) ".schema" = true ∧
    sanitize ce3 = ".schema;" ∧
    (".schema;" : String) ≠ schemaSelect :=
  ⟨by decide, by decide, by decide⟩

/-- C3 amended: the meta-command rewrite tests the trimmed candidate before
any fence stripping: whenever the stripped candidate starts with `.schema`,
sanitize returns exactly the schema query, and likewise for `.tables`; in
particular `sanitize ".schema"` is exactly the schema query. -/
theorem c3_amended :
    (∀ c : String, startswith (String.mk (pyStripL c.data)) ".schema" = true →
      sanitize c = schemaSelect) ∧
    (∀ c : String, startswith (String.mk (pyStripL c.data)) ".schema" = false →
      startswith (String.mk (pyStripL c.data)) ".tables" = true →
      sanitize c = tablesSelect) ∧
    sanitize ".schema" = schemaSelect ∧ sanitize ".tables" = tablesSelect := by
  refine ⟨?_, ?_, by decide, by decide⟩
  · intro c h
    simp only [sanitize]
    rw [if_pos h]
    decide
  · intro c h1 h2
    simp only [sanitize]
    rw [if_neg (by rw [h1]; exact Bool.false_ne_true), if_pos h2]
    decide

/-- C3 witness: the amended statement at concrete candidates with
surrounding whitespace and trailing text. -/
theorem c3_amended_witness :
    sanitize "  .schema now" = schemaSelect ∧ sanitize " .tables" = tablesSelect :=
  ⟨c3_amended.1 "  .schema now" (by decide),
   c3_amended.2.1 " .tables" (by decide) (by decide)⟩

/-- C4 counterexample: in the candidate `ce4` the commentary phrase occurs
(right after `sq`, which together with the fence forms a case-insensitive
fenced `sql` tag), yet sanitize keeps text lying after the start of that
occurrence: the output still contains `run it`.  Fence removal runs first
and consumes the initial letter of the phrase, so the phrase is no longer
found and nothing is discarded. -/
theorem c4_counterexample :
    containsL letsRun ce4.data = true ∧
    sanitize ce4 = "et" ++ apostr ++ "s run it;" ∧
    containsL ("run it").data (sanitize ce4).data = true :=
  ⟨by decide, by decide, by decide⟩

/-- C4 amended: the truncation applies to the fence-stripped candidate:
whenever the fence-stripped, trimmed candidate splits as `u` followed by
the commentary phrase followed by anything, with no earlier occurrence of
the phrase in `u`, sanitize (outside the meta-command rewrites) is computed
from `u` alone, discarding the phrase and everything after it; in
particular the fenced example sanitizes to `SELECT 1;`. -/
theorem c4_amended :
    (∀ (x : String) (u v : List Char),
      startswith (String.mk (pyStripL x.data)) ".schema" = false →
      startswith (String.mk (pyStripL x.data)) ".tables" = false →
      removeFencesL (pyStripL x.data) = u ++ (letsRun ++ v) →
      containsL letsRun u = false →
      sanitize x = String.mk (postSemis u)) ∧
    sanitize ex4 = "SELECT 1;" := by
  constructor
  · intro x u v h1 h2 hd hu
    simp only [sanitize]
    rw [if_neg (by rw [h1]; exact Bool.false_ne_true),
        if_neg (by rw [h2]; exact Bool.false_ne_true)]
    show String.mk (postSemis (truncateAtL letsRun (removeFencesL (pyStripL x.data)))) = _
    rw [hd, truncate_split u v hu]
  · decide

/-- C4 witness: the amended statement applied at a concrete candidate,
yielding the text before the phrase with a terminating semicolon. -/
theorem c4_amended_witness : sanitize ex4w = "SELECT 2;" :=
  Eq.trans
    (c4_amended.1 ex4w ("SELECT 2 ").data (" now").data
      (by decide) (by decide) (by decide) (by decide))
    (by decide)

/-- C5: the sanitize operation is total over all input strings in this
embedding; on every input (the empty string included) it returns a
non-empty string that ends in exactly one semicolon, and the worst case for
the empty input is the lone semicolon, left for the execution stage. -/
theorem c5_sanitize_total_worst_case :
    (∀ c : String, sanitize c ≠ "" ∧ endsInOneSemi (sanitize c) = true) ∧
    sanitize "" = ";" := by
  refine ⟨?_, by decide⟩
  intro c
  have h := sanitize_wellformed c
  refine ⟨?_, h.1⟩
  intro he
  have h1 := h.1
  rw [he] at h1
  exact absurd h1 (by decide)

/-- C7: for every query result from which no rows are obtained (an empty
structured sequence, or text whose structure is not detected), the
normalizer returns the raw result unchanged for direct display, and no
input ever normalizes to a zero-row table. -/
theorem c7_empty_or_undetected_scalar :
    (∀ probe : Probe,
      normalize_result (RunResult.rows []) probe = Display.scalar (RunResult.rows [])) ∧
    (∀ (s : String) (probe : Probe), startswith s "[(" = false →
      normalize_result (RunResult.text s) probe = Display.scalar (RunResult.text s)) ∧
    (∀ (q : RunResult) (probe : Probe) (cols : List String),
      normalize_result q probe ≠ Display.table cols []) := by
  refine ⟨?_, ?_, ?_⟩
  · intro probe; rfl
  · intro s probe h; simp [normalize_result, h]
  · intro q probe cols h
    cases q with
    | rows l =>
      simp only [normalize_result] at h
      by_cases hl : l.isEmpty = true
      · rw [if_pos hl] at h; exact absurd h (by simp)
      · rw [if_neg hl] at h
        injection h with hcols hrows
        exact hl (by rw [hrows]; rfl)
    | text s =>
      simp only [normalize_result] at h
      by_cases hs : startswith s "[(" = true
      · rw [if_pos hs] at h
        cases hp : literalEvalTuples s with
        | none => rw [hp] at h; exact absurd h (by simp)
        | some l =>
          rw [hp] at h
          simp only [] at h
          by_cases hl : l.isEmpty = true
          · rw [if_pos hl] at h; exact absurd h (by simp)
          · rw [if_neg hl] at h
            injection h with hcols hrows
            exact hl (by rw [hrows]; rfl)
      · rw [if_neg hs] at h; exact absurd h (by simp)

/-- C7 witness: the undetected-structure part at a concrete text result. -/
theorem c7_witness :
    normalize_result (RunResult.text "7 rows selected") Probe.fail
      = Display.scalar (RunResult.text "7 rows selected") :=
  c7_empty_or_undetected_scalar.2.1 "7 rows selected" Probe.fail (by decide)

/-- C8: whenever the database boundary raises on the sanitized query, the
turn surfaces the exception as the non-fatal execution warning, and the
transcript still receives both the user message and the assistant message,
so the session continues. -/
theorem c8_execution_failure_nonfatal (msgs : List ChatMessage) (q raw : String)
    (dbRun : String → Except String RunResult) (probe : Probe) (s e : String)
    (h1 : extract_sql raw = some s) (h2 : s.isEmpty = false)
    (h3 : dbRun (sanitize s) = Except.error e) :
    handle_turn msgs q raw dbRun probe =
      (TurnDisplay.execWarn e, msgs ++ [⟨Role.user, q⟩, ⟨Role.assistant, raw⟩]) := by
  simp [handle_turn, h1, h2, h3]

/-- C8 witness: the theorem at a concrete turn whose database oracle
raises. -/
theorem c8_witness :
    handle_turn [] "q" "SQLQuery: SELECT x FROM t"
      (fun _ => Except.error "no such table") Probe.fail
      = (TurnDisplay.execWarn "no such table",
         [⟨Role.user, "q"⟩, ⟨Role.assistant, "SQLQuery: SELECT x FROM t"⟩]) :=
  c8_execution_failure_nonfatal [] "q" "SQLQuery: SELECT x FROM t"
    (fun _ => Except.error "no such table") Probe.fail "SELECT x FROM t" "no such table"
    (by decide) (by decide) rfl

/-- C9: after every clear of the transcript store, regardless of the prior
contents, the transcript has length exactly one and its single message has
the assistant role. -/
theorem c9_clear_single_assistant (prior : List ChatMessage) :
    (clear_messages prior).length = 1 ∧
    (clear_messages prior).map ChatMessage.role = [Role.assistant] := by
  simp [clear_messages]

/-- C10 counterexample: in `raw10` the marker is followed immediately by a
newline, so the remainder of the line on which the marker appears is empty;
nevertheless the extraction captures `SELECT 1` from the following line,
because the greedy whitespace class consumes the newline before the capture
starts.  This refutes the claim that the capture never extends past the end
of the marker line. -/
theorem c10_counterexample :
    findMarker raw10.data = some after10.data ∧
    pyStripL (after10.data.takeWhile (fun c => c != '\n')) = [] ∧
    extract_sql raw10 = some "SELECT 1" ∧
    ("SELECT 1" : String) ≠ "" :=
  ⟨by decide, by decide, by decide, by decide⟩

/-- C10 amended: the extraction captures a single line: after skipping any
whitespace (newlines included) that follows the marker, the capture runs to
the end of that line only, so the extracted candidate never contains a line
break and all subsequent lines are discarded. -/
theorem c10_amended (raw s : String) (h : extract_sql raw = some s) :
    s.data.all (fun c => c != '\n') = true := by
  unfold extract_sql at h
  cases hm : findMarker raw.data with
  | none => rw [hm] at h; exact absurd h (by simp)
  | some after =>
    rw [hm] at h
    simp only [Option.some.injEq] at h
    rw [← h]
    rw [List.all_eq_true]
    intro c hc
    have h2 : c ∈ (after.dropWhile isPySpace).takeWhile (fun c => c != '\n') :=
      mem_of_mem_stripEnds isPySpace _ c hc
    exact mem_takeWhile_sat _ _ c h2

/-- C10 witness: the amended statement at the concrete raw output whose SQL
starts on the line after the marker. -/
theorem c10_amended_witness :
    ("SELECT 1" : String).data.all (fun c => c != '\n') = true :=
  c10_amended raw10 "SELECT 1" (by decide)
